import Mathlib

/-
Verification of the eebit bit-schema library: a shallow embedding of
src/eebit/helpers.py, src/eebit/bitmask.py and src/eebit/bithandler.py,
followed by theorems about the embedded operations.

Python conventions used in the embedding:
  * Python exceptions are modelled by the `PyErr` type; fallible code returns
    `Except PyErr _`.
  * Python dicts are modelled by insertion-ordered association lists with the
    Python assignment semantics (`dictSet` overwrites in place, otherwise
    appends); dict literals built by iteration are `dictOfList`.
  * Python ints are `Int`; Python floats are modelled exactly as rationals
    (every IEEE double is a rational, and `int()` truncates toward zero).
  * `v >> s` on ints is floor division by `2 ^ s`; `v & (2 ^ w - 1)` is the
    nonnegative remainder `emod (2 ^ w)` (two's-complement semantics).
  * Python string comparison is lexicographic on code points (`pyStrLt`).
-/

namespace Eebit

/-- Python exception kinds raised by the library, with their messages. -/
inductive PyErr where
  | valueError (msg : String)
  | typeError (msg : String)
  | indexError (msg : String)
deriving DecidableEq, Repr

/-- Python scalar values that flow through the untyped parameters of the
library (schema keys, positions, bit keys). Floats are carried exactly as
rationals. -/
inductive PyVal where
  | int (n : Int)
  | bool (b : Bool)
  | float (q : ℚ)
  | str (s : String)
deriving DecidableEq, Repr

/-- Value of a nonempty string of decimal digits. -/
def digitsToNat? (l : List Char) : Option Nat :=
  if l = [] then none
  else if l.all Char.isDigit then
    some (l.foldl (fun acc c => acc * 10 + (c.toNat - 48)) 0)
  else none

/-- Python `int(s)` on a string: an optional sign followed by decimal digits
(the forms that occur in bit schemas); `none` models `ValueError`. -/
def pyIntOfStr (s : String) : Option Int :=
  match s.data with
  | '-' :: rest => (digitsToNat? rest).map (fun n => -(n : Int))
  | '+' :: rest => (digitsToNat? rest).map (fun n => (n : Int))
  | l => (digitsToNat? l).map (fun n => (n : Int))

/-- Python `int(f)` on a float: truncation toward zero. -/
def pyTrunc (q : ℚ) : Int :=
  if 0 ≤ q.num then Int.ofNat (q.num.toNat / q.den)
  else -Int.ofNat ((-q.num).toNat / q.den)

/-- Python `int(v)`; `none` models the `ValueError` raised for an
unparseable string. -/
def pyIntOf? : PyVal → Option Int
  | .int n => some n
  | .bool b => some (if b then 1 else 0)
  | .float q => some (pyTrunc q)
  | .str s => pyIntOfStr s

/-- helpers.is_int: `int(value)` succeeds (the `ValueError` is caught). -/
def is_int (v : PyVal) : Bool :=
  (pyIntOf? v).isSome

/-- The integer a guarded call site obtains from `int(value)`; only consulted
after an `is_int` guard, so the default never surfaces. -/
def pyIntD (v : PyVal) : Int :=
  (pyIntOf? v).getD 0

/-- helpers.is_str: `not is_int(value) and len(value) > 0`. -/
def is_str (s : String) : Bool :=
  !(is_int (.str s)) && s.length > 0

/-- Python `<` on strings: lexicographic comparison of code points. -/
def pyStrLtChars : List Char → List Char → Bool
  | [], [] => false
  | [], _ :: _ => true
  | _ :: _, [] => false
  | a :: as, b :: bs =>
    if a.val < b.val then true
    else if b.val < a.val then false
    else pyStrLtChars as bs

/-- Python `a > b` on strings. -/
def pyStrGt (a b : String) : Bool :=
  pyStrLtChars b.data a.data

/-- ASCII lower-casing of one character. -/
def asciiLowerChar (c : Char) : Char :=
  if 'A' ≤ c ∧ c ≤ 'Z' then Char.ofNat (c.toNat + 32) else c

/-- ASCII model of Python `str.lower()`. -/
def pyLower (s : String) : String :=
  String.mk (s.data.map asciiLowerChar)

/-- Splitting a character list on every dash (Python `s.split("-")`). -/
def splitDashes : List Char → List (List Char)
  | [] => [[]]
  | c :: rest =>
    match splitDashes rest, decide (c = '-') with
    | r, true => [] :: r
    | [], false => [[c]]
    | x :: xs, false => (c :: x) :: xs

/-- Python dict key membership. -/
def dictContains [DecidableEq K] (m : List (K × V)) (k : K) : Bool :=
  m.any (fun p => decide (p.1 = k))

/-- Python `dict.get`. -/
def dictGet? [DecidableEq K] (m : List (K × V)) (k : K) : Option V :=
  (m.find? (fun p => decide (p.1 = k))).map (fun p => p.2)

/-- Python `m[k] = v`: overwrite in place when the key exists, else append. -/
def dictSet [DecidableEq K] (m : List (K × V)) (k : K) (v : V) : List (K × V) :=
  if dictContains m k then
    m.map (fun p => if p.1 = k then (k, v) else p)
  else m ++ [(k, v)]

/-- A dict built by inserting the pairs of a list in order. -/
def dictOfList [DecidableEq K] (l : List (K × V)) : List (K × V) :=
  l.foldl (fun acc p => dictSet acc p.1 p.2) []

/-- Python `v >> s` on ints (arithmetic shift = floor division). -/
def pyRightShift (v : Int) (s : Nat) : Int :=
  Int.fdiv v (2 ^ s)

/-- Python `v & (2 ^ w - 1)` (two's-complement semantics). -/
def pyAndMask (v : Int) (w : Nat) : Int :=
  Int.emod v (2 ^ w)

/-- Python `v << s`. -/
def pyLeftShift (v : Int) (s : Nat) : Int :=
  v * 2 ^ s

/-- Python `min(l)`; raises on an empty sequence. -/
def pyMin : List Int → Except PyErr Int
  | [] => .error (.valueError "min() arg is an empty sequence")
  | x :: xs => .ok (xs.foldl min x)

/-- Python `max(l)`; raises on an empty sequence. -/
def pyMax : List Int → Except PyErr Int
  | [] => .error (.valueError "max() arg is an empty sequence")
  | x :: xs => .ok (xs.foldl max x)

/-- Python `len(range(a, b))`. -/
def pyLenRange (a b : Int) : Int :=
  max (b - a) 0

/-- `true` on `Except.ok`. -/
def isOkE : Except ε α → Bool
  | .ok _ => true
  | .error _ => false

/-- Shared shape of the two duplicate-detecting accumulation loops
(`BitHandler.all_bits` and the overlap check in `BitMask.__init__`): walk a
list of ints, raising `err p` on the first `p` already accumulated, else
appending it. -/
def addUnique (err : Int → PyErr) : List Int → List Int → Except PyErr (List Int)
  | [], acc => .ok acc
  | p :: ps, acc =>
    if p ∈ acc then .error (err p)
    else addUnique err ps (acc ++ [p])

/-- `addUnique` folded over a list of lists. -/
def addAllUnique (err : Int → PyErr) : List (List Int) → List Int → Except PyErr (List Int)
  | [], acc => .ok acc
  | ps :: rest, acc =>
    match addUnique err ps acc with
    | .error e => .error e
    | .ok acc2 => addAllUnique err rest acc2

/-- The outcome of `str(bit).split("-", 2)` on a raw schema key: one, two or
three dash-separated parts (the first two contain no dash). -/
inductive BitKeyParts where
  | one (p0 : String)
  | two (p0 p1 : String)
  | three (p0 p1 p2 : String)
deriving DecidableEq, Repr

/-- The original key string a `BitKeyParts` was split from. -/
def BitKeyParts.render : BitKeyParts → String
  | .one p0 => p0
  | .two p0 p1 => p0 ++ "-" ++ p1
  | .three p0 p1 p2 => p0 ++ "-" ++ p1 ++ "-" ++ p2

/-- A canonical `"start-end-name"` key, kept split into its three parts. -/
structure CanonKey where
  start : String
  stop : String
  name : String
deriving DecidableEq, Repr

/-- The canonical key rendered back to its string form. -/
def CanonKey.render (k : CanonKey) : String :=
  k.start ++ "-" ++ k.stop ++ "-" ++ k.name

/-- The common tail of helpers.format_bit_key once `parts` has exactly three
entries; `orig` is the original key string used in messages. Note the source
compares `parts[0] > parts[1]` as Python STRINGS. -/
def format_bit_key3 (orig p0 p1 p2 : String) : Except PyErr CanonKey :=
  if is_int (.str p0) && is_int (.str p1) && pyStrGt p0 p1 then
    .error (.valueError ("In bit " ++ orig ++ ", start bit must be less than or equal to end bit."))
  else if !(is_int (.str p0) && is_int (.str p1)) then
    .error (.valueError ("Bad format for " ++ orig ++ ". Use start-end-catname"))
  else .ok ⟨p0, p1, p2⟩

/-- helpers.format_bit_key. -/
def format_bit_key (parts : BitKeyParts) : Except PyErr CanonKey :=
  match parts with
  | .one p0 =>
    .error (.valueError ("Bad format for " ++ p0 ++ ". Use start-end-catname"))
  | .two p0 p1 =>
    if is_int (.str p0) && is_str p1 then
      format_bit_key3 (BitKeyParts.render (.two p0 p1)) p0 p0 p1
    else
      .error (.valueError ("Bad format for " ++ BitKeyParts.render (.two p0 p1) ++
        ". Use start-end-catname"))
  | .three p0 p1 p2 =>
    format_bit_key3 (BitKeyParts.render (.three p0 p1 p2)) p0 p1 p2

/-- A raw schema value: a bare label string, or a mapping from positions to
label strings (keys may be Python ints or strings). -/
inductive RawValue where
  | str (s : String)
  | dict (m : List (PyVal × String))
deriving DecidableEq, Repr

/-- The dict loop of helpers.format_bit_value, canonicalizing keys to their
decimal string form. -/
def format_bit_value_go : List (PyVal × String) → List (String × String) →
    Except PyErr (List (String × String))
  | [], acc => .ok acc
  | (pos, val) :: rest, acc =>
    if !(is_int pos) then
      .error (.valueError "Bit position must be an integer.")
    else if !(is_str val) then
      .error (.valueError "Bit value must be a non-empty string.")
    else format_bit_value_go rest (dictSet acc (toString (pyIntD pos)) val)

/-- helpers.format_bit_value. -/
def format_bit_value : RawValue → Except PyErr (List (String × String))
  | .str v => .ok [("1", v)]
  | .dict m => format_bit_value_go m []

/-- The single-part-key rewrite at the top of the helpers.format_bits_info
loop: a bare numeric `"pos"` key takes its category name from the value. -/
def expand_single_bit (bit : BitKeyParts) (info : RawValue) : Except PyErr BitKeyParts :=
  match bit with
  | .one p0 =>
    if is_int (.str p0) then
      match info with
      | .dict m =>
        if m.length ≤ 2 then
          match (dictGet? m (.str "1")).orElse (fun _ => dictGet? m (.int 1)) with
          | some bit1 => .ok (.three p0 p0 bit1)
          | none => .error (.valueError "For single bit the positive value must be set.")
        else .error (.valueError "For single bit the positive value must be set.")
      | .str s => .ok (.three p0 p0 s)
    else .ok bit
  | _ => .ok bit

/-- The loop of helpers.format_bits_info: `classes` accumulates seen category
names, `final` the canonicalized schema. -/
def format_bits_info_go :
    List (BitKeyParts × RawValue) → List String → List (CanonKey × List (String × String)) →
    Except PyErr (List (CanonKey × List (String × String)))
  | [], _, final => .ok final
  | (bit0, info) :: rest, classes, final =>
    match expand_single_bit bit0 info with
    | .error e => .error e
    | .ok bit =>
      match format_bit_key bit with
      | .error e => .error e
      | .ok key =>
        let start := pyIntD (.str key.start)
        let stop := pyIntD (.str key.stop)
        let nbits : Int := stop - start + 1
        if nbits < 1 then
          .error (.valueError ("In bit " ++ key.render ++
            ", start bit must be less than or equal to end bit."))
        else if key.name ∈ classes then
          .error (.valueError ("Bits information cannot contain duplicated names. " ++
            key.name ++ " is duplicated."))
        else
          match format_bit_value info with
          | .error e => .error e
          | .ok formatted =>
            if (formatted.length : Int) > 2 ^ nbits.toNat then
              .error (.valueError ("Number of values in bit " ++ key.render ++
                " exceeds the number of bits."))
            else if (formatted.map (fun p => pyIntD (.str p.1))).any
                (fun pos => 2 ^ nbits.toNat ≤ pos) then
              .error (.valueError ("One or more positions in bit " ++ key.render ++
                " are out of range for the number of bits."))
            else
              format_bits_info_go rest (classes ++ [key.name]) (dictSet final key formatted)

/-- helpers.format_bits_info. -/
def format_bits_info (bits_info : List (BitKeyParts × RawValue)) :
    Except PyErr (List (CanonKey × List (String × String))) :=
  format_bits_info_go bits_info [] []

/-- A constructed `Bit` object (bitmask.Bit). -/
structure BitObj where
  position : Int
  positive : String
  negative : String
deriving DecidableEq, Repr

/-- Bit.__init__; `negative` defaults to `"no {positive}"`, also when the
explicit argument is falsy (`negative or ...`). -/
def Bit.init (position : PyVal) (positive : String) (negative : Option String) :
    Except PyErr BitObj :=
  if is_int position then
    .ok ⟨pyIntD position, positive,
      match negative with
      | some s => if s.length > 0 then s else "no " ++ positive
      | none => "no " ++ positive⟩
  else .error (.typeError "Bit position must be an integer.")

/-- A constructed `BitGroup` object (bitmask.BitGroup): the fields stored by
a successful `__init__`. -/
structure BitGroupObj where
  description : String
  min_position : Int
  max_position : Int
  n_values : Int
  value_map : List (Int × String)
deriving DecidableEq, Repr

/-- The value_map validation loop of BitGroup.__init__: keys must parse as
ints in `[0, n_values)` without duplicates, values must be non-empty
non-numeric strings; labels are lower-cased. -/
def BitGroup.validateVM (n_values : Int) : List (PyVal × String) → List (Int × String) →
    Except PyErr (List (Int × String))
  | [], acc => .ok acc
  | (k, v) :: rest, acc =>
    if !(is_int k) then
      .error (.valueError ("Bit position " ++ reprStr k ++ " must be an integer."))
    else if !(is_str v) then
      .error (.valueError ("Bit value " ++ v ++ " must be a non-empty string."))
    else if dictContains acc (pyIntD k) then
      .error (.valueError ("Bit position " ++ toString (pyIntD k) ++
        " is duplicated in the value map."))
    else if pyIntD k < 0 ∨ n_values ≤ pyIntD k then
      .error (.valueError ("Bit position " ++ toString (pyIntD k) ++
        " is out of range for the bit group."))
    else BitGroup.validateVM n_values rest (acc ++ [(pyIntD k, pyLower v)])

/-- BitGroup.__init__ (descriptions and labels are lower-cased; `toLower` is
the ASCII model of Python `str.lower()`). -/
def BitGroup.init (description : String) (min_position max_position : PyVal)
    (value_map : List (PyVal × String)) : Except PyErr BitGroupObj :=
  let description := pyLower description
  if !(is_int min_position) || !(is_int max_position) then
    .error (.typeError "Bit positions must be integers.")
  else
    let minp := pyIntD min_position
    let maxp := pyIntD max_position
    if minp < 0 ∨ maxp < 0 then
      .error (.valueError "Bit positions must be non-negative.")
    else if maxp < minp then
      .error (.valueError "Minimum position must be less than or equal to maximum position.")
    else
      let n_values : Int := 2 ^ (maxp - minp + 1).toNat
      match BitGroup.validateVM n_values value_map [] with
      | .error e => .error e
      | .ok vm =>
        if vm.length = 0 then
          .error (.valueError "Value map cannot be empty.")
        else if minp = maxp ∧ vm.length = 1 ∧ ¬(dictContains vm 1) then
          .error (.valueError "For single bit groups, the value map must contain a value for bit 1.")
        else .ok ⟨description, minp, maxp, n_values, vm⟩

/-- Bit.to_bit_group. -/
def BitObj.to_bit_group (b : BitObj) (description : String) : Except PyErr BitGroupObj :=
  BitGroup.init description (.int b.position) (.int b.position)
    [(.int 0, b.negative), (.int 1, b.positive)]

/-- BitGroup.group_mask: `(1 << num_bits) - 1`. -/
def BitGroupObj.group_mask (g : BitGroupObj) : Int :=
  2 ^ (g.max_position - g.min_position + 1).toNat - 1

/-- The width in bits of the group range. -/
def BitGroupObj.width (g : BitGroupObj) : Nat :=
  (g.max_position - g.min_position + 1).toNat

/-- `(value >> self.min_position) & self.group_mask`, the extraction shared by
decode_value and is_positive_by_key. -/
def BitGroupObj.extracted (g : BitGroupObj) (value : Int) : Int :=
  pyAndMask (pyRightShift value g.min_position.toNat) g.width

/-- BitGroup.decode_value: `value_map.get` of the extracted group value
(absent, not an exception, when unmapped). -/
def BitGroupObj.decode_value (g : BitGroupObj) (value : Int) : Option String :=
  dictGet? g.value_map (g.extracted value)

/-- BitGroup.is_positive_by_key. -/
def BitGroupObj.is_positive_by_key (g : BitGroupObj) (value : Int) (key : PyVal) :
    Except PyErr Bool :=
  if !(is_int key) then
    .error (.typeError "Bit key must be an integer.")
  else
    let k := pyIntD key
    if !(dictContains g.value_map k) then
      .error (.valueError ("Bit key " ++ toString k ++ " is out of range for the bit group."))
    else .ok (decide (g.extracted value = k))

/-- BitGroup.to_dict: the single-entry canonical schema form. -/
def BitGroupObj.to_dict (g : BitGroupObj) : List (CanonKey × List (String × String)) :=
  [(⟨toString g.min_position, toString g.max_position, g.description⟩,
    g.value_map.map (fun p => (toString p.1, p.2)))]

/-- An element of the list handed to BitMask.__init__: a Bit or a BitGroup. -/
inductive BitOrGroup where
  | bit (b : BitObj)
  | group (g : BitGroupObj)
deriving DecidableEq, Repr

/-- The per-element promotion in BitMask.__init__: a Bit becomes a width-1
group named by its positive label, a BitGroup passes through. -/
def BitMask.promoteOne : BitOrGroup → Except PyErr BitGroupObj
  | .bit bb => bb.to_bit_group bb.positive
  | .group g => .ok g

/-- The first loop of BitMask.__init__: Bits promote to width-1 groups named
by their positive label; duplicate descriptions are rejected. -/
def BitMask.promoteLoop : List BitOrGroup → List String → List BitGroupObj →
    Except PyErr (List BitGroupObj)
  | [], _, acc => .ok acc
  | b :: rest, descriptions, acc =>
    match BitMask.promoteOne b with
    | .error e => .error e
    | .ok group =>
      if group.description ∈ descriptions then
        .error (.valueError ("Bit description " ++ group.description ++
          " is duplicated in the bitmask."))
      else BitMask.promoteLoop rest (descriptions ++ [group.description]) (acc ++ [group])

/-- `list(range(group.min_position, group.max_position + 1))`. -/
def claimedPositions (g : BitGroupObj) : List Int :=
  (List.range (g.max_position + 1 - g.min_position).toNat).map
    (fun i : Nat => g.min_position + (i : Int))

/-- The second loop of BitMask.__init__: expand every group's range and
reject a repeated position. -/
def BitMask.checkOverlap (groups : List BitGroupObj) : Except PyErr (List Int) :=
  addAllUnique
    (fun p => .valueError ("Bit position " ++ toString p ++ " is duplicated in the bitmask."))
    (groups.map claimedPositions) []

/-- `self.bits[-1].max_position + 1`: IndexError on an empty group list. -/
def BitMask.lastTotal (groups : List BitGroupObj) : Except PyErr Int :=
  match groups.getLast? with
  | some g => .ok (g.max_position + 1)
  | none => .error (.indexError "list index out of range")

/-- A constructed `BitMask` object. -/
structure BitMaskObj where
  bits : List BitGroupObj
  total : Int
deriving DecidableEq, Repr

/-- BitMask.__init__; `total or (self.bits[-1].max_position + 1)` falls back
on the last group also when the explicit total is 0 (falsy). -/
def BitMask.init (bits : List BitOrGroup) (total : Option Int) : Except PyErr BitMaskObj :=
  match BitMask.promoteLoop bits [] [] with
  | .error e => .error e
  | .ok groups =>
    match BitMask.checkOverlap groups with
    | .error e => .error e
    | .ok _ =>
      match (match total with
             | some t => if t = 0 then BitMask.lastTotal groups else .ok t
             | none => BitMask.lastTotal groups) with
      | .error e => .error e
      | .ok t => .ok ⟨groups, t⟩

/-- BitMask.to_dict: `final.update(group.to_dict())` over the groups. -/
def BitMaskObj.to_dict (m : BitMaskObj) : List (CanonKey × List (String × String)) :=
  m.bits.foldl
    (fun final g => (g.to_dict).foldl (fun acc p => dictSet acc p.1 p.2) final) []

/-- The group-construction loop of BitMask.from_dict: each canonical entry
becomes a BitGroup (`{int(k): v}` keys are re-parsed to ints). -/
def BitMask.buildGroups : List (CanonKey × List (String × String)) →
    Except PyErr (List BitGroupObj)
  | [] => .ok []
  | (key, value) :: rest =>
    match BitGroup.init key.name (.int (pyIntD (.str key.start)))
        (.int (pyIntD (.str key.stop)))
        ((dictOfList (value.map (fun q => (pyIntD (.str q.1), q.2)))).map
          (fun q => ((.int q.1 : PyVal), q.2))) with
    | .error e => .error e
    | .ok g =>
      match BitMask.buildGroups rest with
      | .error e => .error e
      | .ok gs => .ok (g :: gs)

/-- BitMask.from_dict: normalize, build the groups, construct. -/
def BitMask.from_dict (bits_info : List (BitKeyParts × RawValue)) :
    Except PyErr BitMaskObj :=
  match format_bits_info bits_info with
  | .error e => .error e
  | .ok formatted =>
    match BitMask.buildGroups formatted with
    | .error e => .error e
    | .ok groups => BitMask.init (groups.map .group) none

/-- A canonical schema re-read as raw input (Python passes the same dict of
strings to from_dict). -/
def canonToRaw (s : List (CanonKey × List (String × String))) :
    List (BitKeyParts × RawValue) :=
  s.map (fun p => (.three p.1.start p.1.stop p.1.name,
    .dict (p.2.map (fun q => ((.str q.1 : PyVal), q.2)))))

/-- Modelled from the spec: `helpers.decode_key` is called by
`BitHandler.all_bits` but is not present in src/eebit/helpers.py. Per the
spec, all_bits is "built by expanding each canonical key's range", so
decode_key expands a canonical start-end-name key into the positions
start..end. -/
def decode_key (key : CanonKey) : List Int :=
  let start := pyIntD (.str key.start)
  let stop := pyIntD (.str key.stop)
  (List.range (stop + 1 - start).toNat).map (fun i : Nat => start + (i : Int))

/-- BitHandler.all_bits: expand every canonical key, rejecting a repeated
position. -/
def BitHandler.all_bits (bits : List (CanonKey × List (String × String))) :
    Except PyErr (List Int) :=
  addAllUnique (fun b => .valueError ("bit " ++ toString b ++ " is duplicated!"))
    (bits.map (fun p => decode_key p.1)) []

/-- A constructed `BitHandler` object. -/
structure BitHandlerObj where
  bits : List (CanonKey × List (String × String))
  bit_length : Int
deriving DecidableEq, Repr

/-- `len(range(min(self.all_bits), max(self.all_bits) + 1))`, evaluated when
the bit_length argument is falsy. -/
def BitHandler.computeLen (F : List (CanonKey × List (String × String))) :
    Except PyErr BitHandlerObj :=
  match BitHandler.all_bits F with
  | .error e => .error e
  | .ok allb =>
    match pyMin allb with
    | .error e => .error e
    | .ok mn =>
      match pyMax allb with
      | .error e => .error e
      | .ok mx => .ok ⟨F, pyLenRange mn (mx + 1)⟩

/-- BitHandler.__init__: normalize the schema; `bit_length` is the explicit
argument unless falsy, else it is derived from all_bits (which is therefore
only forced in that branch — the property is lazy). -/
def BitHandler.init (bits : List (BitKeyParts × RawValue)) (bit_length : Option Int) :
    Except PyErr BitHandlerObj :=
  match format_bits_info bits with
  | .error e => .error e
  | .ok F =>
    match bit_length with
    | some n => if n = 0 then BitHandler.computeLen F else .ok ⟨F, n⟩
    | none => BitHandler.computeLen F

/-- The per-entry mask list of BitHandler.decode_image evaluated at one pixel
value `v` of the selected band (the ee.Image algebra applied pointwise).
`positions.split("-")` splits the canonical key's string form on every dash,
so the unpack `start, end = ...` expects exactly two parts. -/
def BitHandler.decode_image_entry (v : Int) (key : CanonKey)
    (values : List (String × String)) : Except PyErr (List (String × Bool)) :=
  match key.start :: key.stop :: (splitDashes key.name.data).map String.mk with
  | [s, e] =>
    let start := (pyIntD (.str s)).toNat
    let end1 := ((pyIntD (.str e)) + 1).toNat
    let decoded := pyRightShift
      (Int.xor (pyLeftShift (pyRightShift v end1) end1) v) start
    .ok (values.map (fun p => (p.2, decide (pyIntD (.str p.1) = decoded))))
  | _ => .error (.valueError "too many values to unpack (expected 2)")

/-- BitHandler.decode_image at one pixel value: concatenate the per-entry
mask bands over the canonical schema. -/
def BitHandler.decode_image_px (h : BitHandlerObj) (v : Int) :
    Except PyErr (List (String × Bool)) :=
  go h.bits
where
  go : List (CanonKey × List (String × String)) → Except PyErr (List (String × Bool))
    | [] => .ok []
    | (key, values) :: rest =>
      match BitHandler.decode_image_entry v key values with
      | .error e => .error e
      | .ok masks =>
        match go rest with
        | .error e => .error e
        | .ok more => .ok (masks ++ more)

/-- `s` is the canonical decimal numeral of a nonnegative integer (the form
`str(int(s))` returns, with no sign and no leading zeros). -/
def isCanonNatStr (s : String) : Bool :=
  match pyIntOfStr s with
  | some n => decide (0 ≤ n) && decide (toString n = s)
  | none => false

/-- One canonical schema entry in normal form: canonical decimal numerals
for the range bounds and the value-map keys, lower-case name and labels,
dict-unique value-map keys. -/
@[reducible]
def entryCanon (p : CanonKey × List (String × String)) : Prop :=
  isCanonNatStr p.1.start = true ∧ isCanonNatStr p.1.stop = true ∧
  pyLower p.1.name = p.1.name ∧
  (p.2.map Prod.fst).Nodup ∧
  ∀ q ∈ p.2, isCanonNatStr q.1 = true ∧ pyLower q.2 = q.2

/-- The canonical schemas of the round-trip property in normal form: every
entry in normal form, with pairwise distinct category names (schema keys of
a Python dict are unique, and distinct names make distinct keys). -/
@[reducible]
def canonLowerSchema (S : List (CanonKey × List (String × String))) : Prop :=
  (S.map (fun p => p.1.name)).Nodup ∧ ∀ p ∈ S, entryCanon p

/-- The BitGroup a successful `BitMask.from_dict` builds from a normal-form
canonical entry. -/
def groupOf (p : CanonKey × List (String × String)) : BitGroupObj :=
  ⟨p.1.name, pyIntD (.str p.1.start), pyIntD (.str p.1.stop),
    2 ^ (pyIntD (.str p.1.stop) - pyIntD (.str p.1.start) + 1).toNat,
    p.2.map (fun q => (pyIntD (.str q.1), q.2))⟩

/- Concrete example objects used by the witness theorems below. They match
objects produced by the constructors (checked in the witnesses). -/

/-- The 2-bit cloud-level group of the repository's test suite. -/
def exGroupCloud : BitGroupObj :=
  ⟨"cloud levels", 1, 2, 4,
    [(0, "no clouds"), (1, "low clouds"), (2, "medium clouds"), (3, "high clouds")]⟩

/-- An incomplete variant of the cloud-level group (keys 1 and 3 unmapped). -/
def exGroupIncomplete : BitGroupObj :=
  ⟨"cloud levels", 1, 2, 4, [(0, "no clouds"), (2, "medium clouds")]⟩

/-- Group "a" on bits 4-5. -/
def exGroupA : BitGroupObj := ⟨"a", 4, 5, 4, [(1, "x")]⟩

/-- Group "b" on bits 0-1. -/
def exGroupB : BitGroupObj := ⟨"b", 0, 1, 4, [(1, "y")]⟩

/-- Group "a" on bits 0-1. -/
def exGroupA0 : BitGroupObj := ⟨"a", 0, 1, 4, [(1, "x")]⟩

/-- A second group also described "a", on bits 1-2 (overlaps exGroupA0). -/
def exGroupC : BitGroupObj := ⟨"a", 1, 2, 4, [(1, "y")]⟩

/-- Group "d" on bits 1-2 (overlaps exGroupA0, distinct description). -/
def exGroupD : BitGroupObj := ⟨"d", 1, 2, 4, [(1, "y")]⟩

/-- A small raw schema: bit 1 "a", bits 2-3 "b". -/
def exSchema1 : List (BitKeyParts × RawValue) :=
  [(.three "1" "1" "a", .str "x"),
   (.three "2" "3" "b", .dict [((.str "1" : PyVal), "lo"), ((.str "2" : PyVal), "mid")])]

/-- The BitHandler built from `exSchema1` with no explicit bit_length. -/
def exHandler1 : BitHandlerObj :=
  ⟨[(⟨"1", "1", "a"⟩, [("1", "x")]), (⟨"2", "3", "b"⟩, [("1", "lo"), ("2", "mid")])], 3⟩

/-- A canonical-schema entry with upper-case name and label. -/
def cexS2 : List (CanonKey × List (String × String)) := [(⟨"1", "1", "A"⟩, [("1", "B")])]

/-- A normal-form (lower-case) canonical schema. -/
def exS2 : List (CanonKey × List (String × String)) :=
  [(⟨"3", "3", "cloud"⟩, [("1", "cloud")]), (⟨"8", "9", "conf"⟩, [("1", "low"), ("2", "high")])]

/-- The BitMask that `from_dict` builds from `exS2`. -/
def exM2 : BitMaskObj :=
  ⟨[⟨"cloud", 3, 3, 2, [(1, "cloud")]⟩, ⟨"conf", 8, 9, 4, [(1, "low"), (2, "high")]⟩], 10⟩

/-! ### Helper lemmas about the dict model and the accumulation loops -/

theorem dictContains_iff [DecidableEq K] (m : List (K × V)) (k : K) :
    dictContains m k = true ↔ k ∈ m.map Prod.fst := by
  simp only [dictContains, List.any_eq_true, decide_eq_true_eq, List.mem_map]

theorem dictGet?_isSome_eq [DecidableEq K] (m : List (K × V)) (k : K) :
    (dictGet? m k).isSome = dictContains m k := by
  induction m with
  | nil => rfl
  | cons p rest ih =>
    simp only [dictGet?, dictContains, List.find?_cons, List.any_cons] at *
    by_cases h : p.1 = k
    · simp [h]
    · simp [h, ih]

theorem dictGet?_eq_none_iff [DecidableEq K] (m : List (K × V)) (k : K) :
    dictGet? m k = none ↔ dictContains m k = false := by
  rw [← dictGet?_isSome_eq]
  cases dictGet? m k <;> simp

theorem dictGet?_isSome_iff [DecidableEq K] (m : List (K × V)) (k : K) :
    (dictGet? m k).isSome = true ↔ dictContains m k = true := by
  rw [dictGet?_isSome_eq]

theorem dictSet_fresh [DecidableEq K] (m : List (K × V)) (k : K) (v : V)
    (h : k ∉ m.map Prod.fst) : dictSet m k v = m ++ [(k, v)] := by
  rw [dictSet, if_neg]
  intro hc
  exact h ((dictContains_iff m k).mp hc)

theorem foldl_dictSet_append [DecidableEq K] (l : List (K × V)) (acc : List (K × V))
    (hnd : (l.map Prod.fst).Nodup)
    (hfresh : ∀ k ∈ l.map Prod.fst, k ∉ acc.map Prod.fst) :
    l.foldl (fun a p => dictSet a p.1 p.2) acc = acc ++ l := by
  induction l generalizing acc with
  | nil => simp
  | cons p rest ih =>
    simp only [List.foldl_cons]
    rw [dictSet_fresh acc p.1 p.2 (hfresh p.1 (by simp))]
    have hnd' : (rest.map Prod.fst).Nodup := (List.nodup_cons.mp (by simpa using hnd)).2
    have hfresh' : ∀ k ∈ rest.map Prod.fst, k ∉ (acc ++ [(p.1, p.2)]).map Prod.fst := by
      intro k hk
      simp only [List.map_append, List.mem_append, List.map_cons, List.map_nil,
        List.mem_cons, List.not_mem_nil, or_false]
      rintro (hka | hkp)
      · exact hfresh k (by simp [hk]) hka
      · exact (List.nodup_cons.mp (by simpa using hnd)).1 (hkp ▸ hk)
    rw [ih (acc ++ [(p.1, p.2)]) hnd' hfresh']
    simp

theorem dictOfList_eq_self [DecidableEq K] (l : List (K × V))
    (hnd : (l.map Prod.fst).Nodup) : dictOfList l = l := by
  simpa using foldl_dictSet_append l [] hnd (by simp)

theorem foldl_min_le_init (xs : List Int) (x : Int) : xs.foldl min x ≤ x := by
  induction xs generalizing x with
  | nil => simp
  | cons a xs ih => exact le_trans (ih (min x a)) (min_le_left x a)

theorem init_le_foldl_max (xs : List Int) (x : Int) : x ≤ xs.foldl max x := by
  induction xs generalizing x with
  | nil => simp
  | cons a xs ih => exact le_trans (le_max_left x a) (ih (max x a))

theorem foldl_min_le_foldl_max (xs : List Int) (x : Int) :
    xs.foldl min x ≤ xs.foldl max x :=
  le_trans (foldl_min_le_init xs x) (init_le_foldl_max xs x)

theorem addUnique_ok (err : Int → PyErr) (ps acc : List Int)
    (h : (acc ++ ps).Nodup) : addUnique err ps acc = .ok (acc ++ ps) := by
  induction ps generalizing acc with
  | nil => simp [addUnique]
  | cons p ps ih =>
    have hnp : p ∉ acc := by
      intro hmem
      rcases List.nodup_append.mp h with ⟨-, -, hdisj⟩
      exact hdisj hmem (List.mem_cons_self p ps)
    have e : acc ++ p :: ps = (acc ++ [p]) ++ ps := by simp
    rw [addUnique, if_neg hnp, ih (acc ++ [p]) (by rw [← e]; exact h), ← e]

theorem addUnique_err (err : Int → PyErr) (ps acc : List Int)
    (hacc : acc.Nodup) (h : ¬ (acc ++ ps).Nodup) :
    ∃ p, addUnique err ps acc = .error (err p) := by
  induction ps generalizing acc with
  | nil => exact absurd (by simpa using hacc) h
  | cons p ps ih =>
    by_cases hp : p ∈ acc
    · exact ⟨p, by rw [addUnique, if_pos hp]⟩
    · have hacc' : (acc ++ [p]).Nodup := by
        rw [List.nodup_append]
        refine ⟨hacc, List.nodup_singleton p, ?_⟩
        intro a ha hmem
        rw [List.mem_singleton] at hmem
        exact hp (hmem ▸ ha)
      have e : acc ++ p :: ps = (acc ++ [p]) ++ ps := by simp
      obtain ⟨q, hq⟩ := ih (acc ++ [p]) hacc' (by rw [← e]; exact h)
      exact ⟨q, by rw [addUnique, if_neg hp]; exact hq⟩

theorem addAllUnique_ok (err : Int → PyErr) (lists : List (List Int)) (acc : List Int)
    (h : (acc ++ lists.flatten).Nodup) :
    addAllUnique err lists acc = .ok (acc ++ lists.flatten) := by
  induction lists generalizing acc with
  | nil => simp [addAllUnique]
  | cons ps rest ih =>
    have e : acc ++ (ps :: rest).flatten = (acc ++ ps) ++ rest.flatten := by simp
    have h1 : ((acc ++ ps) ++ rest.flatten).Nodup := by rw [← e]; exact h
    rw [addAllUnique, addUnique_ok err ps acc h1.of_append_left]
    show addAllUnique err rest (acc ++ ps) = _
    rw [ih (acc ++ ps) h1, e]

theorem addAllUnique_err (err : Int → PyErr) (lists : List (List Int)) (acc : List Int)
    (hacc : acc.Nodup) (h : ¬ (acc ++ lists.flatten).Nodup) :
    ∃ p, addAllUnique err lists acc = .error (err p) := by
  induction lists generalizing acc with
  | nil => exact absurd (by simpa using hacc) h
  | cons ps rest ih =>
    have e : acc ++ (ps :: rest).flatten = (acc ++ ps) ++ rest.flatten := by simp
    by_cases hok : ((acc ++ ps)).Nodup
    · obtain ⟨q, hq⟩ := ih (acc ++ ps) hok (by rw [e] at h; exact h)
      refine ⟨q, ?_⟩
      rw [addAllUnique, addUnique_ok err ps acc hok]
      show addAllUnique err rest (acc ++ ps) = _
      exact hq
    · obtain ⟨q, hq⟩ := addUnique_err err ps acc hacc hok
      refine ⟨q, ?_⟩
      rw [addAllUnique, hq]

theorem rangeShift_nodup (start : Int) (n : Nat) :
    ((List.range n).map (fun i : Nat => start + (i : Int))).Nodup := by
  have h1 : (List.range n).Nodup := List.nodup_range n
  refine h1.map ?_
  intro a b hab
  dsimp only at hab
  omega

theorem decode_key_nodup (k : CanonKey) : (decode_key k).Nodup :=
  rangeShift_nodup _ _

theorem claimedPositions_nodup (g : BitGroupObj) : (claimedPositions g).Nodup :=
  rangeShift_nodup _ _

/-! ### Structural lemmas about the constructors -/

theorem BitGroup_validateVM_ok (n : Int) (vmIn : List (PyVal × String))
    (acc out : List (Int × String)) (h : BitGroup.validateVM n vmIn acc = .ok out) :
    out = acc ++ vmIn.map (fun q => (pyIntD q.1, pyLower q.2)) := by
  induction vmIn generalizing acc with
  | nil =>
    rw [BitGroup.validateVM] at h
    injection h with h
    simp [h]
  | cons q rest ih =>
    obtain ⟨k, v⟩ := q
    rw [BitGroup.validateVM] at h
    split at h
    · exact absurd h (by simp)
    · split at h
      · exact absurd h (by simp)
      · split at h
        · exact absurd h (by simp)
        · split at h
          · exact absurd h (by simp)
          · rw [ih _ h]
            simp

theorem BitGroup_init_ok (d : String) (mn mx : PyVal) (vmIn : List (PyVal × String))
    (g : BitGroupObj) (h : BitGroup.init d mn mx vmIn = .ok g) :
    g = ⟨pyLower d, pyIntD mn, pyIntD mx,
         2 ^ (pyIntD mx - pyIntD mn + 1).toNat,
         vmIn.map (fun q => (pyIntD q.1, pyLower q.2))⟩ := by
  simp only [BitGroup.init] at h
  split at h
  · exact absurd h (by simp)
  · split at h
    · exact absurd h (by simp)
    · split at h
      · exact absurd h (by simp)
      · split at h
        · exact absurd h (by simp)
        · rename_i hvm
          split at h
          · exact absurd h (by simp)
          · split at h
            · exact absurd h (by simp)
            · injection h with h
              rw [← h, BitGroup_validateVM_ok _ _ _ _ hvm]
              simp

theorem BitMask_promoteLoop_groups_ok (gs : List BitGroupObj)
    (descs : List String) (acc out : List BitGroupObj)
    (h : BitMask.promoteLoop (gs.map .group) descs acc = .ok out) :
    out = acc ++ gs := by
  induction gs generalizing descs acc with
  | nil =>
    simp only [List.map_nil, BitMask.promoteLoop] at h
    injection h with h
    simp [h]
  | cons g rest ih =>
    rw [List.map_cons] at h
    simp only [BitMask.promoteLoop, BitMask.promoteOne] at h
    split at h
    · exact absurd h (by simp)
    · rw [ih _ _ h]
      simp

/-! ### The claims -/

/-- Claim C10: constructing a BitMask from an empty list of groups with no
explicit total reaches the unguarded access `self.bits[-1]` and fails with
IndexError, not with any of the documented validation errors. -/
theorem claim10_empty_bitmask_index_error :
    BitMask.init [] none = .error (.indexError "list index out of range") := rfl

/-- Claim C4 (code bug): `format_bit_key` compares the start and end parts as
Python strings, so the key `"2-10-name"`, whose integer start 2 is at most
its integer end 10, is nonetheless rejected by normalization with the
start-greater-than-end message. -/
theorem claim4_start_end_string_compare :
    pyIntD (.str "2") ≤ pyIntD (.str "10") ∧
    pyStrGt "2" "10" = true ∧
    format_bit_key (.three "2" "10" "name") =
      .error (.valueError "In bit 2-10-name, start bit must be less than or equal to end bit.") ∧
    format_bits_info [(.three "2" "10" "name", .dict [((.str "1" : PyVal), "x")])] =
      .error (.valueError "In bit 2-10-name, start bit must be less than or equal to end bit.") :=
  ⟨by decide, rfl, rfl, rfl⟩

/-- Claim C8 (code bug): `decode_image` splits each canonical
`"start-end-name"` key on every dash and unpacks the parts into exactly two
variables, so it raises ValueError on the very first schema entry instead of
producing the multiband decode equivalent to `BitMask.get_masks`. -/
theorem claim8_decode_image_unpack :
    (BitHandler.init [(.three "3" "3" "Cloud", .str "Cloud")] none).map
      (fun h => BitHandler.decode_image_px h 8) =
    .ok (.error (.valueError "too many values to unpack (expected 2)")) := rfl

/-- Claim C3: for a key k present in the value_map, `is_positive_by_key v k`
returns exactly `(v >> min_position) & group_mask == k`; a non-integer key
fails with TypeError and an integer key missing from the value_map fails
with ValueError (the spec's UnknownKeyError). -/
theorem claim3_is_positive_by_key (g : BitGroupObj) (v : Int) (k : PyVal) :
    (is_int k = false →
      g.is_positive_by_key v k = .error (.typeError "Bit key must be an integer.")) ∧
    (is_int k = true → dictContains g.value_map (pyIntD k) = true →
      g.is_positive_by_key v k =
        .ok (decide ((pyRightShift v g.min_position.toNat).emod (g.group_mask + 1) = pyIntD k))) ∧
    (is_int k = true → dictContains g.value_map (pyIntD k) = false →
      g.is_positive_by_key v k =
        .error (.valueError ("Bit key " ++ toString (pyIntD k) ++
          " is out of range for the bit group."))) := by
  refine ⟨?_, ?_, ?_⟩
  · intro hk
    rw [BitGroupObj.is_positive_by_key, if_pos (by simp [hk])]
  · intro hk hc
    simp only [BitGroupObj.is_positive_by_key]
    rw [if_neg (by simp [hk]), if_neg (by simp [hc])]
    have hmask : g.group_mask + 1 = 2 ^ g.width := by
      rw [BitGroupObj.group_mask, BitGroupObj.width]
      ring
    rw [BitGroupObj.extracted, pyAndMask, hmask]
  · intro hk hc
    simp only [BitGroupObj.is_positive_by_key]
    rw [if_neg (by simp [hk]), if_pos (by simp [hc])]

/-- Witness for claim C3 on the test suite's cloud-level group: key 0 on
value 217, a non-integer key, and a key missing from an incomplete map. -/
theorem claim3_witness :
    exGroupCloud.is_positive_by_key 217 (.int 0) =
      .ok (decide ((pyRightShift 217 exGroupCloud.min_position.toNat).emod
        (exGroupCloud.group_mask + 1) = pyIntD (.int 0))) ∧
    exGroupCloud.is_positive_by_key 217 (.str "x") =
      .error (.typeError "Bit key must be an integer.") ∧
    exGroupIncomplete.is_positive_by_key 217 (.int 1) =
      .error (.valueError ("Bit key " ++ toString (pyIntD (.int 1)) ++
        " is out of range for the bit group.")) :=
  ⟨(claim3_is_positive_by_key exGroupCloud 217 (.int 0)).2.1 rfl (by decide),
   (claim3_is_positive_by_key exGroupCloud 217 (.str "x")).1 rfl,
   (claim3_is_positive_by_key exGroupIncomplete 217 (.int 1)).2.2 rfl (by decide)⟩

/-- Claim C7: for a constructed BitGroup, decode_value is absent exactly when
the extracted key is unmapped (and never raises), and with a complete value
map (every key in `[0, n_values)` present) it always returns a label. -/
theorem claim7_decode_value (d : String) (mn mx : PyVal) (vmIn : List (PyVal × String))
    (g : BitGroupObj) (hinit : BitGroup.init d mn mx vmIn = .ok g) :
    (∀ v : Int, g.decode_value v = none ↔
      dictContains g.value_map (g.extracted v) = false) ∧
    ((∀ k : Int, 0 ≤ k → k < g.n_values → dictContains g.value_map k = true) →
      ∀ v : Int, (g.decode_value v).isSome = true) := by
  constructor
  · intro v
    exact dictGet?_eq_none_iff _ _
  · intro hcomp v
    have hshape := BitGroup_init_ok d mn mx vmIn g hinit
    have hn : g.n_values = 2 ^ g.width := by
      rw [hshape]
      rfl
    rw [BitGroupObj.decode_value, dictGet?_isSome_iff]
    refine hcomp _ ?_ ?_
    · rw [BitGroupObj.extracted, pyAndMask]
      exact Int.emod_nonneg _ (by positivity)
    · rw [hn, BitGroupObj.extracted, pyAndMask]
      exact Int.emod_lt_of_pos _ (by positivity)

/-- Witness for claim C7: the complete cloud-level group decodes value 6, and
the incomplete variant is absent exactly on unmapped extracted keys. -/
theorem claim7_witness :
    BitGroup.init "Cloud levels" (.int 1) (.int 2)
      [((.int 0 : PyVal), "no clouds"), ((.int 1 : PyVal), "low clouds"),
       ((.int 2 : PyVal), "medium clouds"), ((.int 3 : PyVal), "high clouds")] =
      .ok exGroupCloud ∧
    (exGroupCloud.decode_value 6).isSome = true ∧
    (exGroupIncomplete.decode_value 2 = none ↔
      dictContains exGroupIncomplete.value_map (exGroupIncomplete.extracted 2) = false) := by
  refine ⟨rfl, ?_, ?_⟩
  · exact (claim7_decode_value "Cloud levels" (.int 1) (.int 2)
      [((.int 0 : PyVal), "no clouds"), ((.int 1 : PyVal), "low clouds"),
       ((.int 2 : PyVal), "medium clouds"), ((.int 3 : PyVal), "high clouds")]
      exGroupCloud rfl).2 (by decide) 6
  · exact (claim7_decode_value "Cloud levels" (.int 1) (.int 2)
      [((.int 0 : PyVal), "no clouds"), ((.int 2 : PyVal), "medium clouds")]
      exGroupIncomplete rfl).1 2

/-- Claim C9: every value on which Python `int()` succeeds — including floats
such as 2.9 and booleans — passes the `is_int` guard, and the Bit
constructor silently stores the truncated integer. -/
theorem claim9_int_coercion :
    (∀ v : PyVal, (pyIntOf? v).isSome = true → is_int v = true) ∧
    (∀ (v : PyVal) (lbl : String), is_int v = true →
      Bit.init v lbl none = .ok ⟨pyIntD v, lbl, "no " ++ lbl⟩) ∧
    pyIntOf? (.float (mkRat 29 10)) = some 2 ∧
    pyIntOf? (.bool true) = some 1 := by
  refine ⟨fun v h => h, fun v lbl h => ?_, rfl, rfl⟩
  rw [Bit.init, if_pos h]

/-- Witness for claim C9: `Bit(position=2.9)` constructs with position 2. -/
theorem claim9_witness :
    Bit.init (.float (mkRat 29 10)) "water" none = .ok ⟨2, "water", "no water"⟩ ∧
    is_int (.float (mkRat 29 10)) = true :=
  ⟨claim9_int_coercion.2.1 (.float (mkRat 29 10)) "water" rfl, rfl⟩

/-- Claim C5 counterexample: a BitMask whose groups arrive in decreasing
position order has total = 2, not the claimed highest position + 1 = 6. -/
theorem claim5_counterexample :
    BitGroup.init "a" (.int 4) (.int 5) [((.int 1 : PyVal), "x")] = .ok exGroupA ∧
    BitGroup.init "b" (.int 0) (.int 1) [((.int 1 : PyVal), "y")] = .ok exGroupB ∧
    BitMask.init [.group exGroupA, .group exGroupB] none = .ok ⟨[exGroupA, exGroupB], 2⟩ ∧
    exGroupA.max_position + 1 = 6 ∧
    decide (((⟨[exGroupA, exGroupB], 2⟩ : BitMaskObj).total = 6)) = false :=
  ⟨rfl, rfl, rfl, rfl, rfl⟩

/-- Claim C5 (amended): with no explicit total, a successfully constructed
BitMask's total is the max_position of the LAST group of the input list,
plus 1 (order-dependent, not the highest claimed position). -/
theorem claim5_total_last_group (bits : List BitOrGroup) (m : BitMaskObj)
    (h : BitMask.init bits none = .ok m) :
    ∃ g, m.bits.getLast? = some g ∧ m.total = g.max_position + 1 := by
  cases hpl : BitMask.promoteLoop bits [] [] with
  | error e =>
    simp only [BitMask.init, hpl] at h
    exact Except.noConfusion h
  | ok groups =>
    cases hov : BitMask.checkOverlap groups with
    | error e =>
      simp only [BitMask.init, hpl, hov] at h
      exact Except.noConfusion h
    | ok ps =>
      cases hlast : groups.getLast? with
      | none =>
        simp only [BitMask.init, hpl, hov, BitMask.lastTotal, hlast] at h
        exact Except.noConfusion h
      | some g =>
        simp only [BitMask.init, hpl, hov, BitMask.lastTotal, hlast] at h
        injection h with h
        refine ⟨g, ?_, ?_⟩
        · rw [← h]
          exact hlast
        · rw [← h]

/-- Witness for claim C5 (amended) at the two-group decreasing example. -/
theorem claim5_witness :
    BitMask.init [.group exGroupA, .group exGroupB] none = .ok ⟨[exGroupA, exGroupB], 2⟩ ∧
    (⟨[exGroupA, exGroupB], 2⟩ : BitMaskObj).total = exGroupB.max_position + 1 := by
  refine ⟨rfl, ?_⟩
  obtain ⟨g, hg, ht⟩ := claim5_total_last_group [.group exGroupA, .group exGroupB]
    ⟨[exGroupA, exGroupB], 2⟩ rfl
  have hEq : some exGroupB = some g := by rw [← hg]; rfl
  injection hEq with hEq
  rw [hEq]
  exact ht

/-- Claim C6 counterexample: two overlapping groups that share a description
fail with the duplicate-description error, not the overlapping-positions
error the claim names. -/
theorem claim6_counterexample :
    BitMask.init [.group exGroupA0, .group exGroupC] none =
      .error (.valueError "Bit description a is duplicated in the bitmask.") ∧
    (claimedPositions exGroupA0).contains 1 = true ∧
    (claimedPositions exGroupC).contains 1 = true ∧
    decide ((PyErr.valueError "Bit description a is duplicated in the bitmask.") =
      (PyErr.valueError "Bit position 1 is duplicated in the bitmask.")) = false :=
  ⟨rfl, rfl, rfl, rfl⟩

/-- Claim C6 (amended): when the promoted groups' descriptions are pairwise
distinct (the promotion loop succeeds) and two groups' ranges share a
position, constructing the BitMask fails with the overlapping-position
error, whatever the order of the list. -/
theorem claim6_overlap_error (bits : List BitOrGroup) (gs : List BitGroupObj)
    (hp : BitMask.promoteLoop bits [] [] = .ok gs)
    (hov : ¬ (gs.map claimedPositions).Pairwise List.Disjoint) :
    ∃ p : Int, BitMask.init bits none =
      .error (.valueError ("Bit position " ++ toString p ++ " is duplicated in the bitmask.")) := by
  have hnj : ¬ ((gs.map claimedPositions).flatten.Nodup) := by
    rw [List.nodup_flatten]
    intro hcon
    exact hov hcon.2
  obtain ⟨p, hperr⟩ := addAllUnique_err
    (fun p => .valueError ("Bit position " ++ toString p ++ " is duplicated in the bitmask."))
    (gs.map claimedPositions) [] List.nodup_nil (by simpa using hnj)
  refine ⟨p, ?_⟩
  simp only [BitMask.init, hp, BitMask.checkOverlap]
  rw [hperr]

/-- Witness for claim C6 (amended): overlapping groups with distinct
descriptions are rejected with the overlap error. -/
theorem claim6_witness :
    BitMask.init [.group exGroupA0, .group exGroupD] none =
      .error (.valueError "Bit position 1 is duplicated in the bitmask.") := by
  have h6 := claim6_overlap_error [.group exGroupA0, .group exGroupD] [exGroupA0, exGroupD]
    rfl (by
      intro hpw
      simp only [List.map_cons, List.map_nil] at hpw
      have hd := (List.pairwise_cons.mp hpw).1 (claimedPositions exGroupD) (by simp)
      exact hd (show (1 : Int) ∈ claimedPositions exGroupA0 by decide)
        (show (1 : Int) ∈ claimedPositions exGroupD by decide))
  obtain ⟨p, hp⟩ := h6
  exact rfl

/-- Claim C1: for a schema accepted by the BitHandler constructor, all_bits
is the concatenation of the expansions of the canonical keys' ranges, it
raises the duplicate error exactly when a position appears in two
expansions, and with no explicit bit_length the stored bit_length is
max(all_bits) - min(all_bits) + 1. The range expansion `decode_key` is
modelled from the spec (its source is not in the repository snapshot). -/
theorem claim1_all_bits_bit_length (s : List (BitKeyParts × RawValue)) (bl : Option Int)
    (h : BitHandlerObj) (hinit : BitHandler.init s bl = .ok h) :
    (∀ l ∈ h.bits.map (fun p => decode_key p.1), l.Nodup) ∧
    ((h.bits.map (fun p => decode_key p.1)).flatten.Nodup →
      BitHandler.all_bits h.bits = .ok (h.bits.map (fun p => decode_key p.1)).flatten) ∧
    (¬ (h.bits.map (fun p => decode_key p.1)).flatten.Nodup →
      ∃ b : Int, BitHandler.all_bits h.bits =
        .error (.valueError ("bit " ++ toString b ++ " is duplicated!"))) ∧
    (bl = none →
      ∃ allb mn mx, BitHandler.all_bits h.bits = .ok allb ∧ pyMin allb = .ok mn ∧
        pyMax allb = .ok mx ∧ h.bit_length = mx - mn + 1) := by
  refine ⟨?_, ?_, ?_, ?_⟩
  · intro l hl
    obtain ⟨p, -, rfl⟩ := List.mem_map.mp hl
    exact decode_key_nodup p.1
  · intro hnd
    have hok := addAllUnique_ok
      (fun b => .valueError ("bit " ++ toString b ++ " is duplicated!"))
      (h.bits.map (fun p => decode_key p.1)) [] (by simpa using hnd)
    rw [BitHandler.all_bits, hok]
    simp
  · intro hnd
    obtain ⟨b, hb⟩ := addAllUnique_err
      (fun b => .valueError ("bit " ++ toString b ++ " is duplicated!"))
      (h.bits.map (fun p => decode_key p.1)) [] List.nodup_nil (by simpa using hnd)
    exact ⟨b, by rw [BitHandler.all_bits]; exact hb⟩
  · rintro rfl
    cases hfmt : format_bits_info s with
    | error e =>
      simp only [BitHandler.init, hfmt] at hinit
      exact Except.noConfusion hinit
    | ok F =>
      simp only [BitHandler.init, hfmt] at hinit
      cases hab : BitHandler.all_bits F with
      | error e =>
        simp only [BitHandler.computeLen, hab] at hinit
        exact Except.noConfusion hinit
      | ok allb =>
        simp only [BitHandler.computeLen, hab] at hinit
        cases allb with
        | nil =>
          simp only [pyMin] at hinit
          exact Except.noConfusion hinit
        | cons x xs =>
          simp only [pyMin, pyMax] at hinit
          injection hinit with hinit
          refine ⟨x :: xs, xs.foldl min x, xs.foldl max x, ?_, rfl, rfl, ?_⟩
          · rw [← hinit]
            exact hab
          · rw [← hinit]
            show pyLenRange (xs.foldl min x) (xs.foldl max x + 1) = _
            have hle := foldl_min_le_foldl_max xs x
            rw [pyLenRange, max_eq_left (by omega)]
            ring

/-- Witness for claim C1 on a two-entry schema with no explicit
bit_length. -/
theorem claim1_witness :
    BitHandler.init exSchema1 none = .ok exHandler1 ∧
    BitHandler.all_bits exHandler1.bits = .ok [1, 2, 3] ∧
    exHandler1.bit_length = 3 := by
  refine ⟨rfl, ?_, rfl⟩
  exact (claim1_all_bits_bit_length exSchema1 none exHandler1 rfl).2.1 (by decide)

/-! ### Claim C2: the round-trip property -/

/-- Claim C2 counterexample: the canonical schema with upper-case name "A"
and label "B" is accepted by from_dict, but to_dict returns the lower-cased
schema, so the round trip is not the identity. -/
theorem claim2_counterexample :
    isOkE (BitMask.from_dict (canonToRaw cexS2)) = true ∧
    (BitMask.from_dict (canonToRaw cexS2)).map BitMaskObj.to_dict =
      .ok [(⟨"1", "1", "a"⟩, [("1", "b")])] ∧
    decide (([(⟨"1", "1", "a"⟩, [("1", "b")])] :
      List (CanonKey × List (String × String))) = cexS2) = false :=
  ⟨rfl, rfl, rfl⟩

theorem canonNatStr_round (s : String) (h : isCanonNatStr s = true) :
    toString (pyIntD (.str s)) = s ∧ 0 ≤ pyIntD (.str s) ∧ is_int (.str s) = true := by
  rw [isCanonNatStr] at h
  cases hp : pyIntOfStr s with
  | none => rw [hp] at h; exact Bool.noConfusion h
  | some n =>
    rw [hp] at h
    simp only [Bool.and_eq_true, decide_eq_true_eq] at h
    refine ⟨?_, ?_, ?_⟩
    · simp only [pyIntD, pyIntOf?, hp, Option.getD_some]
      exact h.2
    · simp only [pyIntD, pyIntOf?, hp, Option.getD_some]
      exact h.1
    · simp [is_int, pyIntOf?, hp]

theorem canonNatStr_inj (s t : String) (hs : isCanonNatStr s = true)
    (ht : isCanonNatStr t = true) (h : pyIntD (.str s) = pyIntD (.str t)) : s = t := by
  rw [← (canonNatStr_round s hs).1, ← (canonNatStr_round t ht).1, h]

theorem format_bit_value_go_canon (vs : List (String × String))
    (acc out : List (String × String))
    (hcanon : ∀ q ∈ vs, isCanonNatStr q.1 = true)
    (hnd : ((acc.map Prod.fst) ++ vs.map Prod.fst).Nodup)
    (h : format_bit_value_go (vs.map (fun q => ((.str q.1 : PyVal), q.2))) acc = .ok out) :
    out = acc ++ vs := by
  induction vs generalizing acc with
  | nil =>
    rw [List.map_nil, format_bit_value_go] at h
    injection h with h
    simp [h]
  | cons q rest ih =>
    obtain ⟨ks, v⟩ := q
    rw [List.map_cons, format_bit_value_go] at h
    split at h
    · exact absurd h (by simp)
    · split at h
      · exact absurd h (by simp)
      · have hks : toString (pyIntD (.str ks)) = ks :=
          (canonNatStr_round ks (hcanon (ks, v) (by simp))).1
        rw [hks] at h
        have hfresh : ks ∉ acc.map Prod.fst := by
          intro hmem
          rcases List.nodup_append.mp hnd with ⟨-, -, hdisj⟩
          exact hdisj hmem (by simp)
        rw [dictSet_fresh acc ks v hfresh] at h
        have hnd' : (((acc ++ [(ks, v)]).map Prod.fst) ++ rest.map Prod.fst).Nodup := by
          have e : ((acc ++ [(ks, v)]).map Prod.fst) ++ rest.map Prod.fst =
              acc.map Prod.fst ++ (ks, v).1 :: rest.map Prod.fst := by simp
          rw [e]
          simpa using hnd
        have := ih (acc ++ [(ks, v)]) (fun q hq => hcanon q (by simp [hq])) hnd' h
        rw [this]
        simp

theorem format_bit_key_three_ok (a b c : String) (k : CanonKey)
    (h : format_bit_key (.three a b c) = .ok k) : k = ⟨a, b, c⟩ := by
  rw [format_bit_key, format_bit_key3] at h
  split at h
  · exact absurd h (by simp)
  · split at h
    · exact absurd h (by simp)
    · injection h with h
      exact h.symm

theorem format_go_canon (S : List (CanonKey × List (String × String))) :
    ∀ (classes : List String) (final F : List (CanonKey × List (String × String))),
      (∀ p ∈ S, entryCanon p) →
      (∀ k ∈ final.map Prod.fst, k.name ∈ classes) →
      format_bits_info_go (canonToRaw S) classes final = .ok F →
      F = final ++ S ∧ (∀ n ∈ S.map (fun p => p.1.name), n ∉ classes) ∧
        (S.map (fun p => p.1.name)).Nodup := by
  induction S with
  | nil =>
    intro classes final F hS hinv h
    rw [canonToRaw, List.map_nil, format_bits_info_go] at h
    injection h with h
    simp [← h]
  | cons p rest ih =>
    obtain ⟨⟨ks, ke, kn⟩, vm⟩ := p
    intro classes final F hS hinv h
    have hent := hS _ (List.mem_cons_self _ _)
    obtain ⟨hks, hke, hkn, hvmnd, hvm⟩ := hent
    rw [canonToRaw, List.map_cons] at h
    simp only at h
    rw [format_bits_info_go] at h
    simp only [expand_single_bit] at h
    cases hk : format_bit_key (.three ks ke kn) with
    | error e =>
      simp only [hk] at h
      exact Except.noConfusion h
    | ok k =>
      have hkk : k = ⟨ks, ke, kn⟩ := format_bit_key_three_ok _ _ _ _ hk
      subst hkk
      simp only [hk] at h
      split at h
      · exact absurd h (by simp)
      · split at h
        · exact absurd h (by simp)
        · rename_i hnb hncl
          rw [format_bit_value] at h
          cases hgo : format_bit_value_go
              (vm.map (fun q => ((.str q.1 : PyVal), q.2))) [] with
          | error e =>
            simp only [hgo] at h
            exact Except.noConfusion h
          | ok fmt =>
            simp only [hgo] at h
            have hfmt : fmt = vm := by
              have := format_bit_value_go_canon vm [] fmt
                (fun q hq => (hvm q hq).1) (by simpa using hvmnd) hgo
              simpa using this
            subst hfmt
            split at h
            · exact absurd h (by simp)
            · split at h
              · exact absurd h (by simp)
              · have hfresh : (⟨ks, ke, kn⟩ : CanonKey) ∉ final.map Prod.fst := by
                  intro hmem
                  exact hncl (hinv _ hmem)
                rw [dictSet_fresh _ _ _ hfresh] at h
                have hinv' : ∀ k ∈ (final ++ [((⟨ks, ke, kn⟩ : CanonKey), fmt)]).map Prod.fst,
                    k.name ∈ classes ++ [kn] := by
                  intro k hk2
                  rw [List.map_append] at hk2
                  rcases List.mem_append.mp hk2 with hk2 | hk2
                  · exact List.mem_append_left _ (hinv _ hk2)
                  · simp only [List.map_cons, List.map_nil, List.mem_singleton] at hk2
                    subst hk2
                    simp
                have h' : format_bits_info_go (canonToRaw rest) (classes ++ [kn])
                    (final ++ [((⟨ks, ke, kn⟩ : CanonKey), fmt)]) = .ok F := h
                obtain ⟨hF, hnotin, hnd⟩ := ih (classes ++ [kn])
                  (final ++ [(⟨ks, ke, kn⟩, fmt)]) F
                  (fun q hq => hS q (List.mem_cons_of_mem _ hq)) hinv' h'
                refine ⟨?_, ?_, ?_⟩
                · rw [hF]
                  simp
                · intro n hn
                  rw [List.map_cons, List.mem_cons] at hn
                  rcases hn with hn | hn
                  · simp only at hn
                    rw [hn]
                    exact hncl
                  · intro hcl
                    exact hnotin n hn (List.mem_append_left _ hcl)
                · rw [List.map_cons, List.nodup_cons]
                  refine ⟨?_, hnd⟩
                  intro hmem
                  exact hnotin kn hmem (List.mem_append_right _ (by simp))

theorem pyIntD_int (n : Int) : pyIntD (.int n) = n := rfl

theorem map_eq_self_of (l : List α) (f : α → α) (h : ∀ a ∈ l, f a = a) :
    l.map f = l := by
  induction l with
  | nil => rfl
  | cons a rest ih =>
    rw [List.map_cons, h a (by simp), ih (fun b hb => h b (by simp [hb]))]

theorem map_congr_mem (l : List α) (f g : α → β) (h : ∀ a ∈ l, f a = g a) :
    l.map f = l.map g := by
  induction l with
  | nil => rfl
  | cons a rest ih =>
    rw [List.map_cons, List.map_cons, h a (by simp),
      ih (fun b hb => h b (by simp [hb]))]

theorem buildGroups_canon (S : List (CanonKey × List (String × String))) :
    ∀ gs : List BitGroupObj, (∀ p ∈ S, entryCanon p) →
      BitMask.buildGroups S = .ok gs → gs = S.map groupOf := by
  induction S with
  | nil =>
    intro gs hS h
    rw [BitMask.buildGroups] at h
    injection h with h
    simp [← h]
  | cons p rest ih =>
    obtain ⟨⟨ks, ke, kn⟩, vm⟩ := p
    intro gs hS h
    obtain ⟨hks, hke, hkn, hvmnd, hvm⟩ := hS _ (List.mem_cons_self _ _)
    simp only at hks hke hkn hvmnd hvm
    rw [BitMask.buildGroups] at h
    split at h
    · exact absurd h (by simp)
    · rename_i g heq
      split at h
      · exact absurd h (by simp)
      · rename_i gs' heq2
        injection h with h
        have hlst_nodup :
            ((vm.map (fun q => (pyIntD (.str q.1), q.2))).map Prod.fst).Nodup := by
          have e : (vm.map (fun q => (pyIntD (.str q.1), q.2))).map Prod.fst =
              (vm.map Prod.fst).map (fun s => pyIntD (.str s)) := by
            simp [List.map_map]
          rw [e]
          refine List.Nodup.map_on ?_ hvmnd
          intro s hs t ht hst
          obtain ⟨qs, hqs, rfl⟩ := List.mem_map.mp hs
          obtain ⟨qt, hqt, rfl⟩ := List.mem_map.mp ht
          exact canonNatStr_inj _ _ (hvm qs hqs).1 (hvm qt hqt).1 hst
        have hdict := dictOfList_eq_self
          (vm.map (fun q => (pyIntD (.str q.1), q.2))) hlst_nodup
        have hgshape := BitGroup_init_ok _ _ _ _ _ heq
        have hgof : g = groupOf (⟨ks, ke, kn⟩, vm) := by
          rw [hgshape, groupOf]
          simp only
          rw [hdict]
          simp only [List.map_map, pyIntD_int]
          rw [hkn]
          congr 1
          refine map_congr_mem vm _ _ ?_
          intro q hq
          simp only [Function.comp_apply, pyIntD_int]
          rw [(hvm q hq).2]
        rw [← h, hgof, ih gs' (fun q hq => hS q (List.mem_cons_of_mem _ hq)) heq2]
        rw [List.map_cons]

theorem to_dict_groupOf (p : CanonKey × List (String × String))
    (h : entryCanon p) : (groupOf p).to_dict = [p] := by
  obtain ⟨⟨ks, ke, kn⟩, vm⟩ := p
  obtain ⟨hks, hke, hkn, hvmnd, hvm⟩ := h
  simp only at hks hke hkn hvmnd hvm
  rw [BitGroupObj.to_dict, groupOf]
  simp only
  rw [(canonNatStr_round ks hks).1, (canonNatStr_round ke hke).1]
  have hvmself : (vm.map (fun q => (pyIntD (.str q.1), q.2))).map
      (fun p => (toString p.1, p.2)) = vm := by
    rw [List.map_map]
    refine map_eq_self_of vm _ ?_
    intro q hq
    obtain ⟨a, b⟩ := q
    simp only [Function.comp_apply]
    rw [(canonNatStr_round a (hvm (a, b) hq).1).1]
  rw [hvmself]

theorem keys_nodup_of_names (S : List (CanonKey × List (String × String)))
    (h : (S.map (fun p => p.1.name)).Nodup) : (S.map Prod.fst).Nodup := by
  have e : S.map (fun p => p.1.name) = (S.map Prod.fst).map CanonKey.name := by
    simp [List.map_map]
  rw [e] at h
  exact h.of_map _

theorem groupOf_fold (S : List (CanonKey × List (String × String))) :
    ∀ final : List (CanonKey × List (String × String)),
      (∀ p ∈ S, entryCanon p) →
      (S.map Prod.fst).Nodup →
      (∀ k ∈ S.map Prod.fst, k ∉ final.map Prod.fst) →
      (S.map groupOf).foldl
        (fun final g => (g.to_dict).foldl (fun acc p => dictSet acc p.1 p.2) final) final =
      final ++ S := by
  induction S with
  | nil =>
    intro final _ _ _
    simp
  | cons p rest ih =>
    intro final hS hnd hfresh
    rw [List.map_cons, List.foldl_cons, to_dict_groupOf p (hS p (List.mem_cons_self _ _))]
    rw [List.foldl_cons, List.foldl_nil]
    rw [dictSet_fresh final p.1 p.2 (hfresh p.1 (by simp))]
    have hnd' : (rest.map Prod.fst).Nodup := (List.nodup_cons.mp (by simpa using hnd)).2
    have hhead : p.1 ∉ rest.map Prod.fst := (List.nodup_cons.mp (by simpa using hnd)).1
    have hfresh' : ∀ k ∈ rest.map Prod.fst, k ∉ (final ++ [(p.1, p.2)]).map Prod.fst := by
      intro k hk
      rw [List.map_append, List.mem_append]
      rintro (hka | hkp)
      · exact hfresh k (by simp [hk]) hka
      · simp only [List.map_cons, List.map_nil, List.mem_singleton] at hkp
        exact hhead (hkp ▸ hk)
    rw [ih (final ++ [(p.1, p.2)]) (fun q hq => hS q (List.mem_cons_of_mem _ hq)) hnd' hfresh']
    simp

theorem BitMask_init_groups_ok (gs : List BitGroupObj) (m : BitMaskObj)
    (h : BitMask.init (gs.map .group) none = .ok m) : m.bits = gs := by
  cases hpl : BitMask.promoteLoop (gs.map .group) [] [] with
  | error e =>
    simp only [BitMask.init, hpl] at h
    exact Except.noConfusion h
  | ok out =>
    have hout : out = gs := by
      simpa using BitMask_promoteLoop_groups_ok gs [] [] out hpl
    cases hov : BitMask.checkOverlap out with
    | error e =>
      simp only [BitMask.init, hpl, hov] at h
      exact Except.noConfusion h
    | ok ps =>
      cases hlast : out.getLast? with
      | none =>
        simp only [BitMask.init, hpl, hov, BitMask.lastTotal, hlast] at h
        exact Except.noConfusion h
      | some g =>
        simp only [BitMask.init, hpl, hov, BitMask.lastTotal, hlast] at h
        injection h with h
        rw [← h]
        exact hout

/-- Claim C2 (amended): for every canonical schema in normal form (canonical
decimal numerals, lower-case names and labels, dict-unique keys) accepted by
BitMask.from_dict, the round trip to_dict returns the schema unchanged. The
original claim fails only because BitGroup lower-cases descriptions and
labels (and re-canonicalizes numerals), so schemas outside normal form come
back normalized. -/
theorem claim2_roundtrip_lower (S : List (CanonKey × List (String × String)))
    (m : BitMaskObj) (hS : canonLowerSchema S)
    (h : BitMask.from_dict (canonToRaw S) = .ok m) :
    m.to_dict = S := by
  obtain ⟨hndname, hent⟩ := hS
  cases hfmt : format_bits_info (canonToRaw S) with
  | error e =>
    simp only [BitMask.from_dict, hfmt] at h
    exact Except.noConfusion h
  | ok F =>
    simp only [BitMask.from_dict, hfmt] at h
    rw [format_bits_info] at hfmt
    obtain ⟨hF, -, -⟩ := format_go_canon S [] [] F hent (by simp) hfmt
    rw [List.nil_append] at hF
    rw [hF] at h
    cases hbg : BitMask.buildGroups S with
    | error e =>
      simp only [hbg] at h
      exact Except.noConfusion h
    | ok gs =>
      simp only [hbg] at h
      have hgs := buildGroups_canon S gs hent hbg
      have hbits := BitMask_init_groups_ok gs m h
      rw [BitMaskObj.to_dict, hbits, hgs]
      have hfold := groupOf_fold S [] hent (keys_nodup_of_names S hndname) (by simp)
      simpa using hfold

/-- Witness for claim C2 (amended) on a two-entry lower-case schema. -/
theorem claim2_witness :
    BitMask.from_dict (canonToRaw exS2) = .ok exM2 ∧ exM2.to_dict = exS2 := by
  refine ⟨rfl, ?_⟩
  exact claim2_roundtrip_lower exS2 exM2 (by decide) rfl

end Eebit
